import Mathlib

/-!
# socialpoll: the vote counter and the Twitter stream reader

A shallow embedding of `counter/main.go` (the NSQ handler and the periodic
`updater`) and of `twittervotes/twitter.go` (`readFromTwitter`,
`twitterStream`), with the properties of the tally and of the reader proved
over it.

Conventions of the embedding:

* a Go `map[string]int` is an association list of entries with distinct keys
  (`GoMap`); the variable `counts`, which can be the nil map, is an
  `Option GoMap` (`none` is nil);
* Go's `int` is 64 bits wide, as on the amd64 and arm64 targets: a value is
  an `Int`, and the one arithmetic step of the program, `counts[vote]++`,
  wraps around from `maxInt` to `minInt` (`wrapInt`);
* `range counts` visits the entries in the order of the list; Go leaves the
  order unspecified, and every statement below is either about one option or
  about the entries as a whole, so it holds for each order;
* the outcome of `pollData.UpdateAll` is given by the environment, as a
  function from the option written to `true` when the call returns an error
  (an option is written at most once in a tick).
-/

namespace Socialpoll

/-! ## The Go map -/

/-- Entries of a `map[string]int`. -/
abbrev GoMap := List (String × Int)

namespace GoMap

/-- The comma-ok lookup `v, ok := m[k]`. -/
def lookup : GoMap → String → Option Int
  | [], _ => none
  | (k', v) :: t, k => if k' = k then some v else lookup t k

/-- The value expression `m[k]`: the zero value when the key is absent. -/
def get (m : GoMap) (k : String) : Int := (lookup m k).getD 0

/-- The assignment `m[k] = v`. -/
def set : GoMap → String → Int → GoMap
  | [], k, v => [(k, v)]
  | (k', v') :: t, k, v => if k' = k then (k, v) :: t else (k', v') :: set t k v

/-- The keys of the map, in the order of the entries. -/
def keys (m : GoMap) : List String := m.map Prod.fst

/-- A well-formed map holds each key once. -/
def WF (m : GoMap) : Prop := (keys m).Nodup

instance (m : GoMap) : Decidable (WF m) := by unfold WF; infer_instance

end GoMap

/-! ## counter/main.go -/

/-- The variable `counts` of `counterMain`: `none` is the nil map. -/
abbrev Counts := Option GoMap

/-- The expression `len(counts)`; the length of the nil map is 0. -/
def Counts.len : Counts → Nat
  | none => 0
  | some m => m.length

/-- The expression `counts[k]`, which reads the nil map as empty. -/
def Counts.get : Counts → String → Int
  | none, _ => 0
  | some m, k => m.get k

/-- The comma-ok lookup on `counts`. -/
def Counts.lookup : Counts → String → Option Int
  | none, _ => none
  | some m, k => m.lookup k

/-- The keys that have an entry in `counts`. -/
def Counts.keys : Counts → List String
  | none => []
  | some m => m.keys

/-- Well-formedness of `counts`. -/
def Counts.WF : Counts → Prop
  | none => True
  | some m => m.WF

instance (c : Counts) : Decidable c.WF := by
  cases c <;> unfold Counts.WF <;> infer_instance

/-- The largest value of Go's `int`, `2^63 - 1`. -/
def maxInt : Int := 9223372036854775807

/-- The smallest value of Go's `int`, `-2^63`. -/
def minInt : Int := -9223372036854775808

/-- The value of an `int` expression whose mathematical result is `v`: the
result is reduced modulo `2^64` into the range from `minInt` to `maxInt`. -/
def wrapInt (v : Int) : Int :=
  (v + 9223372036854775808) % 18446744073709551616 - 9223372036854775808

/-- The NSQ handler (main.go 54-63): under the lock, make the map when it is
nil, then `counts[vote]++`, in `int` arithmetic; the result is the new map
and the returned error, which is always nil. -/
def handler (counts : Counts) (body : String) : Counts × Option String :=
  let m : GoMap := match counts with
    | none => []
    | some m => m
  let vote := body
  (some (m.set vote (wrapInt (m.get vote + 1))), none)

/-- One call `pollData.UpdateAll(sel, up)` of `updater`: the option selected,
the amount of the `$inc`, and whether the call returned without error. -/
structure Write where
  option : String
  delta : Int
  ok : Bool
  deriving DecidableEq, Repr

/-- The loop `for option, count := range counts` of `updater` (main.go 82-91)
over the entries still to visit: each entry is written; on an error `ok`
becomes false, otherwise `counts[option] = 0`. The result is the map, the
writes issued and the flag `ok`. -/
def rangeCounts (fail : String → Bool) : List (String × Int) → GoMap → GoMap × List Write × Bool
  | [], m => (m, [], true)
  | (option, count) :: rest, m =>
    if fail option then
      let r := rangeCounts fail rest m
      (r.1, ⟨option, count, false⟩ :: r.2.1, false)
    else
      let r := rangeCounts fail rest (m.set option 0)
      (r.1, ⟨option, count, true⟩ :: r.2.1, r.2.2)

/-- The closure `updater` (main.go 72-96): nothing is done when
`len(counts) == 0`; otherwise every entry is written, and when no write
failed `counts` is set to nil. The result is the new `counts` and the writes
issued. -/
def updater (fail : String → Bool) (counts : Counts) : Counts × List Write :=
  if counts.len = 0 then (counts, [])
  else
    match counts with
    | none => (none, [])
    | some m =>
      let r := rangeCounts fail m m
      if r.2.2 then (none, r.2.1) else (some r.1, r.2.1)

/-- One step of `updater` on the mutex, the storage or the map:
`countsLock.Lock()`, `countsLock.Unlock()`, a call of `UpdateAll`, the
assignment `counts[option] = 0`, the assignment `counts = nil`. -/
inductive LockEvent where
  | lock
  | unlock
  | updateAll (w : Write)
  | zero (option : String)
  | reset
  deriving DecidableEq, Repr

/-- The loop of `updater` (main.go 82-91) with each step recorded as it is
made: the `UpdateAll` of the entry and, when it returns no error, the
assignment `counts[option] = 0`. The result is the map, the steps and the
flag `ok`. -/
def rangeSteps (fail : String → Bool) :
    List (String × Int) → GoMap → GoMap × List LockEvent × Bool
  | [], m => (m, [], true)
  | (option, count) :: rest, m =>
    if fail option then
      let r := rangeSteps fail rest m
      (r.1, LockEvent.updateAll ⟨option, count, false⟩ :: r.2.1, false)
    else
      let r := rangeSteps fail rest (m.set option 0)
      (r.1, LockEvent.updateAll ⟨option, count, true⟩ :: LockEvent.zero option :: r.2.1,
        r.2.2)

/-- The closure `updater` (main.go 72-96) with each step recorded as it is
made: `countsLock.Lock()` on entry (line 73), the steps of the loop, the
assignment `counts = nil` when `ok` holds (line 94), and the deferred
`countsLock.Unlock()` when the closure returns (line 74), be it from the
early `return` of line 77 or from the end. The result is the new `counts`
and the steps. -/
def updaterRun (fail : String → Bool) (counts : Counts) : Counts × List LockEvent :=
  if counts.len = 0 then (counts, [LockEvent.lock, LockEvent.unlock])
  else
    match counts with
    | none => (none, [LockEvent.lock, LockEvent.unlock])
    | some m =>
      let r := rangeSteps fail m m
      if r.2.2 then (none, LockEvent.lock :: (r.2.1 ++ [LockEvent.reset, LockEvent.unlock]))
      else (some r.1, LockEvent.lock :: (r.2.1 ++ [LockEvent.unlock]))

/-- The steps of one run of `updater`. -/
def updaterEvents (fail : String → Bool) (counts : Counts) : List LockEvent :=
  (updaterRun fail counts).2

/-- Whether the mutex is held after a run of steps, starting from `held`. -/
def lockHeld : Bool → List LockEvent → Bool
  | held, [] => held
  | _, LockEvent.lock :: es => lockHeld true es
  | _, LockEvent.unlock :: es => lockHeld false es
  | held, LockEvent.updateAll _ :: es => lockHeld held es
  | held, LockEvent.zero _ :: es => lockHeld held es
  | held, LockEvent.reset :: es => lockHeld held es

/-- What happens to the consumer: a message is delivered to the handler, or
the ticker fires and `updater` runs with the given write outcomes. -/
inductive Event where
  | vote (body : String)
  | tick (fail : String → Bool)

/-- The consumer from a given `counts`: the events are served one at a time
(handler and `updater` both run under `countsLock`); the result is the final
`counts` and all the writes issued, oldest first. -/
def run : Counts → List Event → Counts × List Write
  | counts, [] => (counts, [])
  | counts, Event.vote body :: es => run (handler counts body).1 es
  | counts, Event.tick fail :: es =>
    let u := updater fail counts
    let r := run u.1 es
    (r.1, u.2 ++ r.2)

/-- The handler applied to a list of messages in turn. -/
def handleAll (counts : Counts) (bodies : List String) : Counts :=
  bodies.foldl (fun c b => (handler c b).1) counts

/-- The amount durably added to `option` by the writes that succeeded. -/
def persisted (option : String) (ws : List Write) : Int :=
  ((ws.filter (fun w => w.ok && decide (w.option = option))).map Write.delta).sum

/-- An outcome function under which every write succeeds. -/
def allSucceed : String → Bool := fun _ => false

/-! ## twittervotes/twitter.go -/

/-- The library call `strings.Contains(s, substr)`: `substr` occurs in `s` as
a contiguous run. The strings are well-formed texts (a decoded JSON string,
a stored option), on which the run of bytes and the run of characters
agree. -/
def contains (s substr : String) : Bool := decide (substr.data <:+: s.data)

/-- The loop over `options` for one decoded tweet (twitter.go 140-145): each
option whose lower-cased form is contained in the lower-cased text is sent on
`votes`. The result is what is sent, in order. `toLower` is the library
function `strings.ToLower`. -/
def sendVotes (toLower : String → String) (text : String) : List String → List String
  | [] => []
  | option :: rest =>
    if contains (toLower text) (toLower option) then option :: sendVotes toLower text rest
    else sendVotes toLower text rest

/-- The decode loop (twitter.go 135-146) over the results of
`decoder.Decode`: `some text` is a decoded tweet, `none` an error, which
breaks the loop; the end of the list is the end of the stream. The result is
everything sent on `votes`. -/
def decodeLoop (toLower : String → String) (options : List String) :
    List (Option String) → List String
  | [] => []
  | none :: _ => []
  | some text :: rest => sendVotes toLower text options ++ decodeLoop toLower options rest

/-- What the environment answers during one call of `readFromTwitter`. -/
structure Session where
  /-- The result of `loadOptions()`; `none` is an error. -/
  options : Option (List String)
  /-- The status code of the response of `client.Do(req)`; `none` is an error. -/
  response : Option Nat
  /-- The results of `decoder.Decode` until the session ends. -/
  decoded : List (Option String)

/-- What the stream reader does that the outside can see: `loadOptions()`,
the `log.Fatal` of `setupTwitterAuth`, which ends the process,
`client.Do(req)`, a send on `votes`, and `close(votes)`. -/
inductive Action where
  | loadOptions
  | fatal
  | doRequest
  | send (vote : String)
  | closeVotes
  deriving DecidableEq, Repr

/-- The function `readFromTwitter` (twitter.go 97-152), reached through
`readFromTwitterWithTimeout`: the options are loaded, the request is built
and sent, and on status 200 the decode loop runs. `makeRequest` runs
`setupTwitterAuth` once in the life of the process; `authOk` tells whether
the credentials are in the environment, and when they are not the set-up
ends the process with `log.Fatal` in the first `makeRequest` (twitter.go
62-64). `http.NewRequest` is given a constant method and endpoint and
returns no error. The context is read only for its deadline and in the final
`select`, which waits for the loop to end; the deferred `<-done` makes every
send happen before the function returns. The result is what is done and
whether the function returns (`false` when the process has ended). -/
def readFromTwitter (toLower : String → String) (authOk : Bool) (s : Session) :
    List Action × Bool :=
  match s.options with
  | none => ([Action.loadOptions], true)
  | some options =>
    if authOk then
      match s.response with
      | none => ([Action.loadOptions, Action.doRequest], true)
      | some status =>
        if status = 200 then
          (Action.loadOptions :: Action.doRequest ::
            (decodeLoop toLower options s.decoded).map Action.send, true)
        else ([Action.loadOptions, Action.doRequest], true)
    else ([Action.loadOptions, Action.fatal], false)

/-- One turn of the loop of `twitterStream`, as the environment drives it. -/
structure Cycle where
  /-- The answers during the session. -/
  session : Session
  /-- The token is cancelled during the session, or during the wait before
  the 10 s timer fires: the `select` takes `ctx.Done()`. -/
  cancelled : Bool
  /-- The token is cancelled once the `select` has taken the timer, before
  the next turn starts. -/
  cancelledLate : Bool

/-- The function `twitterStream` (twitter.go 160-173), from the state of the
token when a turn starts (`done`) over the turns the environment supplies:
each turn calls `readFromTwitterWithTimeout` first and reads the token in
the `select` after it; on `ctx.Done()` the function returns and the deferred
`close(votes)` runs. When the session ends the process nothing follows. An
exhausted list leaves the reader running. -/
def twitterStream (toLower : String → String) (authOk : Bool) :
    Bool → List Cycle → List Action
  | _, [] => []
  | done, c :: rest =>
    let r := readFromTwitter toLower authOk c.session
    if r.2 then
      r.1 ++ (if done || c.cancelled then [Action.closeVotes]
        else twitterStream toLower authOk c.cancelledLate rest)
    else r.1

/-- Whether the `select` of one of the turns supplied finds the token
cancelled: the token was cancelled when that turn started, or is cancelled
during it before the timer fires. -/
def everCancelled : Bool → List Cycle → Bool
  | _, [] => false
  | done, c :: rest => done || c.cancelled || everCancelled c.cancelledLate rest

/-- Lower-casing of the ASCII letters, on which `strings.ToLower` agrees; used
to evaluate the reader on concrete texts. -/
def lowerAscii (s : String) : String := String.mk (s.data.map Char.toLower)

/-! ## Auxiliary definitions for the statements -/

/-- The write that `updater` issues for one entry. -/
def writeOf (fail : String → Bool) (e : String × Int) : Write := ⟨e.1, e.2, !fail e.1⟩

/-- The number of messages for `option` among the events. -/
def votesFor (option : String) : List Event → Nat
  | [] => 0
  | Event.vote body :: es => (if body = option then 1 else 0) + votesFor option es
  | Event.tick _ :: es => votesFor option es

/-- The writes for `option` that carry a non-zero amount. -/
def nonZeroWritesFor (option : String) (ws : List Write) : List Write :=
  ws.filter (fun w => decide (w.option = option) && decide (w.delta ≠ 0))

/-- Each step of a run that is a storage call or an assignment to the map,
with whether the mutex is held when it is made, starting from `held`. -/
def heldAtSteps : Bool → List LockEvent → List (LockEvent × Bool)
  | _, [] => []
  | _, LockEvent.lock :: es => heldAtSteps true es
  | _, LockEvent.unlock :: es => heldAtSteps false es
  | held, LockEvent.updateAll w :: es => (LockEvent.updateAll w, held) :: heldAtSteps held es
  | held, LockEvent.zero o :: es => (LockEvent.zero o, held) :: heldAtSteps held es
  | held, LockEvent.reset :: es => (LockEvent.reset, held) :: heldAtSteps held es

/-- The write of a step, when the step is a call of `UpdateAll`. -/
def LockEvent.write? : LockEvent → Option Write
  | LockEvent.updateAll w => some w
  | _ => none

/-- The option of a step, when the step is `counts[option] = 0`. -/
def LockEvent.zeroed? : LockEvent → Option String
  | LockEvent.zero o => some o
  | _ => none

/-- The votes in `bodies` as consumer events. -/
def votes (bodies : List String) : List Event := bodies.map Event.vote

/-- The vote events the specification names for one record: the options of
the list, in list order, whose lower-cased form is a substring of the
lower-cased text. -/
def matchedOptions (toLower : String → String) (text : String) (options : List String) :
    List String :=
  options.filter (fun option => decide ((toLower option).data <:+: (toLower text).data))

/-! ## The map operations -/

namespace GoMap

theorem lookup_set_self (m : GoMap) (k : String) (v : Int) :
    lookup (set m k v) k = some v := by
  induction m with
  | nil => simp [set, lookup]
  | cons e t ih =>
    obtain ⟨k', v'⟩ := e
    by_cases h : k' = k
    · simp [set, lookup, h]
    · simp [set, lookup, h, ih]

theorem lookup_set_ne (m : GoMap) (k k' : String) (v : Int) (h : k' ≠ k) :
    lookup (set m k v) k' = lookup m k' := by
  induction m with
  | nil => simp [set, lookup, h.symm]
  | cons e t ih =>
    obtain ⟨k0, v0⟩ := e
    by_cases h0 : k0 = k
    · subst h0
      simp [set, lookup, h.symm]
    · simp only [set, h0, if_false, lookup, ih]

theorem get_set_self (m : GoMap) (k : String) (v : Int) : get (set m k v) k = v := by
  simp [get, lookup_set_self]

theorem get_set_ne (m : GoMap) (k k' : String) (v : Int) (h : k' ≠ k) :
    get (set m k v) k' = get m k' := by
  simp [get, lookup_set_ne m k k' v h]

theorem keys_set_of_mem (m : GoMap) (k : String) (v : Int) (h : k ∈ keys m) :
    keys (set m k v) = keys m := by
  induction m with
  | nil => simp [keys] at h
  | cons e t ih =>
    obtain ⟨k0, v0⟩ := e
    by_cases h0 : k0 = k
    · simp [set, keys, h0]
    · have ht : k ∈ keys t := by
        simp only [keys, List.map_cons, List.mem_cons] at h
        rcases h with h | h
        · exact absurd h.symm h0
        · exact h
      have := ih ht
      simp only [keys] at this
      simp [set, keys, h0, this]

theorem keys_set_of_not_mem (m : GoMap) (k : String) (v : Int) (h : k ∉ keys m) :
    keys (set m k v) = keys m ++ [k] := by
  induction m with
  | nil => simp [set, keys]
  | cons e t ih =>
    obtain ⟨k0, v0⟩ := e
    have h0 : k0 ≠ k := by
      intro h0
      exact h (by simp [keys, h0])
    have ht : k ∉ keys t := by
      intro ht
      exact h (by simp only [keys] at ht; simp [keys, ht])
    have := ih ht
    simp only [keys] at this
    simp [set, keys, h0, this]

theorem mem_keys_set (m : GoMap) (k k' : String) (v : Int) :
    k' ∈ keys (set m k v) ↔ k' ∈ keys m ∨ k' = k := by
  by_cases h : k ∈ keys m
  · rw [keys_set_of_mem m k v h]
    constructor
    · exact Or.inl
    · rintro (h' | h')
      · exact h'
      · exact h' ▸ h
  · rw [keys_set_of_not_mem m k v h]
    simp

theorem WF_set (m : GoMap) (k : String) (v : Int) (h : WF m) : WF (set m k v) := by
  unfold WF at *
  by_cases hk : k ∈ keys m
  · rw [keys_set_of_mem m k v hk]; exact h
  · rw [keys_set_of_not_mem m k v hk]
    rw [List.nodup_append]
    refine ⟨h, List.nodup_singleton k, ?_⟩
    intro a ha hb
    simp only [List.mem_singleton] at hb
    exact hk (hb ▸ ha)

theorem keys_nil : keys ([] : GoMap) = [] := rfl

theorem keys_cons (o : String) (c : Int) (t : GoMap) : keys ((o, c) :: t) = o :: keys t := rfl

theorem mem_keys_cons (k o : String) (c : Int) (t : GoMap) :
    k ∈ keys ((o, c) :: t) ↔ k = o ∨ k ∈ keys t := by
  rw [keys_cons, List.mem_cons]

theorem lookup_eq_none_iff (m : GoMap) (k : String) :
    lookup m k = none ↔ k ∉ keys m := by
  induction m with
  | nil => simp [lookup, keys]
  | cons e t ih =>
    obtain ⟨k0, v0⟩ := e
    by_cases h0 : k0 = k
    · simp [lookup, keys, h0]
    · simp only [keys] at ih
      simp [lookup, keys, h0, ih, Ne.symm h0]

theorem lookup_of_mem (m : GoMap) (h : WF m) (k : String) (v : Int) (hm : (k, v) ∈ m) :
    lookup m k = some v := by
  induction m with
  | nil => simp at hm
  | cons e t ih =>
    obtain ⟨k0, v0⟩ := e
    unfold WF keys at h
    simp only [List.map_cons, List.nodup_cons] at h
    simp only [List.mem_cons, Prod.mk.injEq] at hm
    rcases hm with ⟨hk, hv⟩ | hm
    · simp [lookup, hk, hv]
    · have hne : k0 ≠ k := by
        intro hk
        apply h.1
        rw [hk]
        exact List.mem_map_of_mem Prod.fst hm
      simp only [lookup, hne, if_false]
      exact ih h.2 hm

theorem get_of_mem (m : GoMap) (h : WF m) (k : String) (v : Int) (hm : (k, v) ∈ m) :
    get m k = v := by
  simp [get, lookup_of_mem m h k v hm]

theorem get_of_not_mem (m : GoMap) (k : String) (h : k ∉ keys m) : get m k = 0 := by
  simp [get, (lookup_eq_none_iff m k).2 h]

theorem mem_of_mem_keys (m : GoMap) (k : String) (h : k ∈ keys m) : (k, get m k) ∈ m := by
  induction m with
  | nil => simp [keys] at h
  | cons e t ih =>
    obtain ⟨k0, v0⟩ := e
    by_cases h0 : k0 = k
    · simp [get, lookup, h0]
    · have ht : k ∈ keys t := by
        simp only [keys, List.map_cons, List.mem_cons] at h
        rcases h with h | h
        · exact absurd h.symm h0
        · exact h
      have := ih ht
      simp only [get, lookup, h0, if_false, List.mem_cons, Prod.mk.injEq]
      right
      exact this

end GoMap

/-! ## The loop of `updater` -/

theorem rangeCounts_writes (fail : String → Bool) (es : List (String × Int)) (m : GoMap) :
    (rangeCounts fail es m).2.1 = es.map (writeOf fail) := by
  induction es generalizing m with
  | nil => rfl
  | cons e t ih =>
    obtain ⟨o, c⟩ := e
    by_cases h : fail o = true
    · simp [rangeCounts, h, ih, writeOf]
    · simp [rangeCounts, h, ih, writeOf]

theorem rangeCounts_ok (fail : String → Bool) (es : List (String × Int)) (m : GoMap) :
    (rangeCounts fail es m).2.2 = true ↔ ∀ e ∈ es, fail e.1 = false := by
  induction es generalizing m with
  | nil => simp [rangeCounts]
  | cons e t ih =>
    obtain ⟨o, c⟩ := e
    by_cases h : fail o = true
    · simp [rangeCounts, h]
    · simp [rangeCounts, h, ih]

theorem rangeCounts_lookup (fail : String → Bool) (es : List (String × Int)) (m : GoMap)
    (k : String) :
    GoMap.lookup (rangeCounts fail es m).1 k =
      if k ∈ GoMap.keys es ∧ fail k = false then some 0 else GoMap.lookup m k := by
  induction es generalizing m with
  | nil => simp [rangeCounts, GoMap.keys]
  | cons e t ih =>
    obtain ⟨o, c⟩ := e
    by_cases h : fail o = true
    · simp only [rangeCounts, h, if_true, ih, GoMap.mem_keys_cons]
      by_cases hk : k = o
      · subst hk; simp [h]
      · simp [hk]
    · simp only [Bool.not_eq_true] at h
      simp only [rangeCounts, h, Bool.false_eq_true, if_false, ih, GoMap.mem_keys_cons]
      by_cases hk : k = o
      · subst hk
        simp [h, GoMap.lookup_set_self]
      · simp [hk, GoMap.lookup_set_ne m o k 0 hk]

theorem rangeCounts_keys (fail : String → Bool) (es : List (String × Int)) (m : GoMap)
    (h : ∀ e ∈ es, e.1 ∈ GoMap.keys m) :
    GoMap.keys (rangeCounts fail es m).1 = GoMap.keys m := by
  induction es generalizing m with
  | nil => rfl
  | cons e t ih =>
    obtain ⟨o, c⟩ := e
    have ho : o ∈ GoMap.keys m := h (o, c) (List.mem_cons_self _ _)
    have ht : ∀ e ∈ t, e.1 ∈ GoMap.keys m := fun e he => h e (List.mem_cons_of_mem _ he)
    by_cases hf : fail o = true
    · simp only [rangeCounts, hf, if_true]
      exact ih m ht
    · simp only [Bool.not_eq_true] at hf
      simp only [rangeCounts, hf, Bool.false_eq_true, if_false]
      rw [ih (GoMap.set m o 0) (by rw [GoMap.keys_set_of_mem m o 0 ho]; exact ht)]
      exact GoMap.keys_set_of_mem m o 0 ho

theorem persisted_append (k : String) (a b : List Write) :
    persisted k (a ++ b) = persisted k a + persisted k b := by
  simp [persisted, List.filter_append, List.map_append, List.sum_append]

theorem persisted_cons (k : String) (w : Write) (ws : List Write) :
    persisted k (w :: ws) =
      (if w.ok = true ∧ w.option = k then w.delta else 0) + persisted k ws := by
  by_cases h : w.ok = true ∧ w.option = k
  · simp [persisted, List.filter_cons, h]
  · have h' : (w.ok && decide (w.option = k)) = false := by
      simp only [Bool.and_eq_false_iff, decide_eq_false_iff_not]
      by_cases ho : w.ok = true
      · exact Or.inr (fun hk => h ⟨ho, hk⟩)
      · exact Or.inl (by simpa using ho)
    simp [persisted, List.filter_cons, h, h']

theorem persisted_writes (fail : String → Bool) (es : GoMap) (h : GoMap.WF es) (k : String) :
    persisted k (es.map (writeOf fail)) =
      if k ∈ GoMap.keys es ∧ fail k = false then GoMap.get es k else 0 := by
  induction es with
  | nil => simp [persisted, GoMap.keys]
  | cons e t ih =>
    obtain ⟨o, c⟩ := e
    have hwf := h
    unfold GoMap.WF GoMap.keys at h
    simp only [List.map_cons, List.nodup_cons] at h
    have iht := ih h.2
    rw [List.map_cons, persisted_cons, iht]
    have hnot : o ∉ GoMap.keys t := h.1
    simp only [GoMap.mem_keys_cons]
    by_cases hk : o = k
    · subst hk
      by_cases hf : fail o = false
      · simp [writeOf, GoMap.get, GoMap.lookup, hnot, hf]
      · simp [writeOf, hf]
    · have hk' : k ≠ o := fun h' => hk h'.symm
      simp [writeOf, GoMap.get, GoMap.lookup, hk, hk']

/-! ## The handler and `updater` on `counts` -/

theorem wrapInt_of_range (v : Int) (h1 : minInt ≤ v) (h2 : v ≤ maxInt) : wrapInt v = v := by
  unfold wrapInt
  unfold minInt at h1
  unfold maxInt at h2
  omega

theorem wrapInt_range (v : Int) : minInt ≤ wrapInt v ∧ wrapInt v ≤ maxInt := by
  unfold wrapInt minInt maxInt
  omega

theorem wrapInt_add (a b : Int) : wrapInt (wrapInt a + b) = wrapInt (a + b) := by
  unfold wrapInt
  omega

theorem handler_lookup_self (c : Counts) (b : String) :
    (handler c b).1.lookup b = some (wrapInt (c.get b + 1)) := by
  cases c <;> simp [handler, Counts.lookup, Counts.get, GoMap.lookup_set_self, GoMap.get,
    GoMap.lookup]

theorem handler_lookup_ne (c : Counts) (b k : String) (h : k ≠ b) :
    (handler c b).1.lookup k = c.lookup k := by
  cases c with
  | none =>
    simp only [handler, Counts.lookup, GoMap.lookup_set_ne [] b k _ h]
    rfl
  | some m => simp [handler, Counts.lookup, GoMap.lookup_set_ne m b k _ h]

theorem Counts.get_eq (c : Counts) (k : String) : c.get k = (c.lookup k).getD 0 := by
  cases c <;> simp [Counts.get, Counts.lookup, GoMap.get]

theorem handler_get (c : Counts) (b k : String) :
    (handler c b).1.get k = if k = b then wrapInt (c.get k + 1) else c.get k := by
  by_cases h : k = b
  · subst h
    rw [Counts.get_eq (handler c k).1, handler_lookup_self]
    simp
  · rw [Counts.get_eq (handler c b).1, handler_lookup_ne c b k h, ← Counts.get_eq]
    simp [h]

theorem handler_WF (c : Counts) (b : String) (h : c.WF) : (handler c b).1.WF := by
  cases c with
  | none =>
    simp only [handler, Counts.WF]
    exact GoMap.WF_set [] b _ (by simp [GoMap.WF, GoMap.keys])
  | some m =>
    simp only [handler, Counts.WF]
    exact GoMap.WF_set m b _ h

theorem handler_mem_keys (c : Counts) (b k : String) :
    k ∈ (handler c b).1.keys ↔ k ∈ c.keys ∨ k = b := by
  cases c with
  | none =>
    simp only [handler, Counts.keys, GoMap.mem_keys_set, GoMap.keys_nil, List.not_mem_nil]
  | some m => simp only [handler, Counts.keys, GoMap.mem_keys_set]

theorem Counts.get_zero_of_absent (c : Counts) (k : String) (h : k ∉ c.keys) : c.get k = 0 := by
  cases c with
  | none => rfl
  | some m => exact GoMap.get_of_not_mem m k h

theorem updater_writes (fail : String → Bool) (c : Counts) :
    (updater fail c).2 = (c.getD []).map (writeOf fail) := by
  cases c with
  | none => simp [updater, Counts.len]
  | some m =>
    cases m with
    | nil => simp [updater, Counts.len]
    | cons e t =>
      simp only [updater, Counts.len, List.length_cons, Nat.succ_ne_zero, if_false,
        Option.getD_some]
      split <;> simp [rangeCounts_writes]

theorem updater_get (fail : String → Bool) (c : Counts) (k : String) :
    (updater fail c).1.get k = if k ∈ c.keys ∧ fail k = false then 0 else c.get k := by
  cases c with
  | none => simp [updater, Counts.len, Counts.get, Counts.keys]
  | some m =>
    cases m with
    | nil => simp [updater, Counts.len, Counts.get, Counts.keys, GoMap.keys]
    | cons e t =>
      simp only [updater, Counts.len, List.length_cons, Nat.succ_ne_zero, if_false]
      split
      · rename_i hok
        rw [rangeCounts_ok] at hok
        simp only [Counts.get, Counts.keys]
        by_cases hk : k ∈ GoMap.keys (e :: t)
        · have : fail k = false := by
            simp only [GoMap.keys, List.mem_map] at hk
            obtain ⟨e', he', rfl⟩ := hk
            exact hok e' he'
          simp [hk, this]
        · simp [hk, GoMap.get_of_not_mem _ k hk]
      · simp only [Counts.get, Counts.keys, GoMap.get, rangeCounts_lookup]
        split <;> simp

theorem updater_persisted (fail : String → Bool) (c : Counts) (h : c.WF) (k : String) :
    persisted k (updater fail c).2 = if k ∈ c.keys ∧ fail k = false then c.get k else 0 := by
  rw [updater_writes]
  cases c with
  | none => simp [persisted, Counts.keys]
  | some m => simpa [Counts.keys, Counts.get] using persisted_writes fail m h k

theorem updater_WF (fail : String → Bool) (c : Counts) (h : c.WF) : (updater fail c).1.WF := by
  cases c with
  | none => simp [updater, Counts.len, Counts.WF]
  | some m =>
    cases m with
    | nil => simpa [updater, Counts.len] using h
    | cons e t =>
      simp only [updater, Counts.len, List.length_cons, Nat.succ_ne_zero, if_false]
      split
      · trivial
      · simp only [Counts.WF, GoMap.WF]
        rw [rangeCounts_keys fail (e :: t) (e :: t)
          (fun e' he' => List.mem_map_of_mem Prod.fst he')]
        exact h

theorem updater_keys_of_fail (fail : String → Bool) (c : Counts)
    (h : ∃ k ∈ c.keys, fail k = true) : (updater fail c).1.keys = c.keys := by
  obtain ⟨k, hk, hf⟩ := h
  cases c with
  | none => simp [Counts.keys] at hk
  | some m =>
    cases m with
    | nil => simp [Counts.keys, GoMap.keys] at hk
    | cons e t =>
      simp only [updater, Counts.len, List.length_cons, Nat.succ_ne_zero, if_false]
      split
      · rename_i hok
        rw [rangeCounts_ok] at hok
        simp only [Counts.keys, GoMap.keys, List.mem_map] at hk
        obtain ⟨e', he', rfl⟩ := hk
        rw [hok e' he'] at hf
        exact absurd hf (by decide)
      · simp only [Counts.keys]
        exact rangeCounts_keys fail (e :: t) (e :: t)
          (fun e' he' => List.mem_map_of_mem Prod.fst he')

theorem updater_lookup_of_fail (fail : String → Bool) (c : Counts)
    (h : ∃ k ∈ c.keys, fail k = true) (k : String) :
    (updater fail c).1.lookup k =
      if k ∈ c.keys ∧ fail k = false then some 0 else c.lookup k := by
  obtain ⟨k0, hk, hf⟩ := h
  cases c with
  | none => simp [Counts.keys] at hk
  | some m =>
    cases m with
    | nil => simp [Counts.keys, GoMap.keys] at hk
    | cons e t =>
      simp only [updater, Counts.len, List.length_cons, Nat.succ_ne_zero, if_false]
      split
      · rename_i hok
        rw [rangeCounts_ok] at hok
        simp only [Counts.keys, GoMap.keys, List.mem_map] at hk
        obtain ⟨e', he', rfl⟩ := hk
        rw [hok e' he'] at hf
        exact absurd hf (by decide)
      · simp only [Counts.lookup, Counts.keys]
        exact rangeCounts_lookup fail (e :: t) (e :: t) k

theorem updater_of_all_ok (fail : String → Bool) (c : Counts)
    (h : ∀ k ∈ c.keys, fail k = false) (hlen : c.len ≠ 0) : (updater fail c).1 = none := by
  cases c with
  | none => simp [Counts.len] at hlen
  | some m =>
    simp only [updater, hlen, if_false]
    have hok : (rangeCounts fail m m).2.2 = true := by
      rw [rangeCounts_ok]
      intro e he
      exact h e.1 (List.mem_map_of_mem Prod.fst he)
    simp [hok]

theorem mem_updater_writes (fail : String → Bool) (c : Counts) (h : c.WF) (w : Write) :
    w ∈ (updater fail c).2 ↔
      w.option ∈ c.keys ∧ w.delta = c.get w.option ∧ w.ok = !fail w.option := by
  rw [updater_writes]
  cases c with
  | none => simp [Counts.keys]
  | some m =>
    simp only [Option.getD_some, List.mem_map, Counts.keys, Counts.get]
    constructor
    · rintro ⟨e, he, rfl⟩
      obtain ⟨o, v⟩ := e
      refine ⟨List.mem_map_of_mem Prod.fst he, ?_, rfl⟩
      exact (GoMap.get_of_mem m h o v he).symm
    · rintro ⟨hk, hd, hok⟩
      refine ⟨(w.option, m.get w.option), GoMap.mem_of_mem_keys m _ hk, ?_⟩
      cases w
      simp only [writeOf] at *
      simp [hd, hok]

theorem updater_writes_options (fail : String → Bool) (c : Counts) :
    (updater fail c).2.map Write.option = c.keys := by
  rw [updater_writes]
  cases c with
  | none => rfl
  | some m =>
    simp only [Option.getD_some, Counts.keys, GoMap.keys, List.map_map]
    rfl

theorem handleAll_cons (c : Counts) (b : String) (bs : List String) :
    handleAll c (b :: bs) = handleAll (handler c b).1 bs := rfl

theorem handleAll_get_of_not_mem (c : Counts) (bs : List String) (k : String)
    (h : k ∉ bs) : (handleAll c bs).get k = c.get k := by
  induction bs generalizing c with
  | nil => rfl
  | cons b t ih =>
    rw [List.mem_cons, not_or] at h
    rw [handleAll_cons, ih _ h.2, handler_get]
    simp [h.1]

theorem handleAll_get (c : Counts) (bs : List String) (k : String)
    (hlo : minInt ≤ c.get k) (hhi : c.get k ≤ maxInt) :
    (handleAll c bs).get k = wrapInt (c.get k + (bs.count k : Int)) := by
  induction bs generalizing c with
  | nil =>
    simp only [handleAll, List.foldl_nil, List.count_nil, Nat.cast_zero, add_zero]
    exact (wrapInt_of_range _ hlo hhi).symm
  | cons b t ih =>
    rw [handleAll_cons]
    by_cases h : k = b
    · subst h
      have hget : (handler c k).1.get k = wrapInt (c.get k + 1) := by
        rw [handler_get]; simp
      have hr := wrapInt_range (c.get k + 1)
      rw [ih (handler c k).1 (hget ▸ hr.1) (hget ▸ hr.2), hget, wrapInt_add,
        List.count_cons_self]
      congr 1
      push_cast
      ring
    · have h' : b ≠ k := fun e => h e.symm
      have hget : (handler c b).1.get k = c.get k := by
        rw [handler_get]; simp [h]
      rw [ih (handler c b).1 (hget ▸ hlo) (hget ▸ hhi), hget, List.count_cons_of_ne h]

theorem handleAll_get_of_bound (c : Counts) (bs : List String) (k : String)
    (hlo : minInt ≤ c.get k) (hhi : c.get k + (bs.count k : Int) ≤ maxInt) :
    (handleAll c bs).get k = c.get k + (bs.count k : Int) := by
  have hn : (0 : Int) ≤ (bs.count k : Int) := Int.natCast_nonneg _
  rw [handleAll_get c bs k hlo (by omega)]
  exact wrapInt_of_range _ (by omega) hhi

theorem handleAll_WF (c : Counts) (bs : List String) (h : c.WF) : (handleAll c bs).WF := by
  induction bs generalizing c with
  | nil => exact h
  | cons b t ih =>
    rw [handleAll_cons]
    exact ih _ (handler_WF c b h)

theorem handleAll_mem_keys (c : Counts) (bs : List String) (k : String) :
    k ∈ (handleAll c bs).keys ↔ k ∈ c.keys ∨ k ∈ bs := by
  induction bs generalizing c with
  | nil => simp [handleAll]
  | cons b t ih =>
    rw [handleAll_cons, ih, handler_mem_keys, List.mem_cons, or_assoc]

theorem Counts.mem_keys_of_get_ne_zero (c : Counts) (k : String) (h : c.get k ≠ 0) :
    k ∈ c.keys := by
  by_contra hk
  exact h (Counts.get_zero_of_absent c k hk)

theorem Counts.lookup_of_mem_keys (c : Counts) (k : String) (h : k ∈ c.keys) :
    c.lookup k = some (c.get k) := by
  cases c with
  | none => simp [Counts.keys] at h
  | some m =>
    simp only [Counts.lookup, Counts.get, GoMap.get]
    cases hl : GoMap.lookup m k with
    | none => exact absurd h ((GoMap.lookup_eq_none_iff m k).1 hl)
    | some v => rfl

theorem run_append (c : Counts) (es es' : List Event) :
    run c (es ++ es') = ((run (run c es).1 es').1, (run c es).2 ++ (run (run c es).1 es').2) := by
  induction es generalizing c with
  | nil => simp [run]
  | cons e t ih =>
    cases e with
    | vote b =>
      rw [List.cons_append]
      simp only [run]
      exact ih _
    | tick f =>
      rw [List.cons_append]
      simp only [run]
      rw [ih, List.append_assoc]

theorem updater_balance (fail : String → Bool) (c : Counts) (h : c.WF) (k : String) :
    persisted k (updater fail c).2 + (updater fail c).1.get k = c.get k := by
  rw [updater_persisted fail c h, updater_get]
  split <;> simp

theorem run_WF (c : Counts) (es : List Event) (h : c.WF) : (run c es).1.WF := by
  induction es generalizing c with
  | nil => exact h
  | cons e t ih =>
    cases e with
    | vote b => exact ih _ (handler_WF c b h)
    | tick f => exact ih _ (updater_WF f c h)

theorem updater_get_le (fail : String → Bool) (c : Counts) (k : String)
    (h0 : 0 ≤ c.get k) : 0 ≤ (updater fail c).1.get k ∧ (updater fail c).1.get k ≤ c.get k := by
  rw [updater_get]
  split
  · exact ⟨le_refl 0, h0⟩
  · exact ⟨h0, le_refl _⟩

theorem run_balance (c : Counts) (es : List Event) (h : c.WF) (k : String)
    (h0 : 0 ≤ c.get k) (hb : c.get k + (votesFor k es : Int) ≤ maxInt) :
    persisted k (run c es).2 + (run c es).1.get k = c.get k + (votesFor k es : Int) := by
  induction es generalizing c with
  | nil => simp [run, votesFor, persisted]
  | cons e t ih =>
    cases e with
    | vote b =>
      simp only [run, votesFor] at hb ⊢
      have hn : (0 : Int) ≤ (votesFor k t : Int) := Int.natCast_nonneg _
      have hmin : minInt ≤ 0 := by decide
      by_cases hk : k = b
      · subst hk
        simp only [if_true, Nat.cast_add, Nat.cast_one] at hb ⊢
        have hget : (handler c k).1.get k = c.get k + 1 := by
          rw [handler_get]
          simp only [if_true]
          exact wrapInt_of_range _ (by omega) (by omega)
        rw [ih _ (handler_WF c k h) (by omega) (by omega), hget]
        ring
      · have hk' : ¬ b = k := fun e => hk e.symm
        simp only [hk', if_false, Nat.cast_add, Nat.cast_zero, zero_add] at hb ⊢
        have hget : (handler c b).1.get k = c.get k := by
          rw [handler_get]; simp [hk]
        rw [ih _ (handler_WF c b h) (by omega) (by omega), hget]
    | tick f =>
      simp only [run, votesFor] at hb ⊢
      have hle := updater_get_le f c k h0
      rw [persisted_append, add_assoc, ih _ (updater_WF f c h) hle.1 (by omega), ← add_assoc,
        updater_balance f c h]

theorem run_votes (c : Counts) (bs : List String) : run c (votes bs) = (handleAll c bs, []) := by
  induction bs generalizing c with
  | nil => rfl
  | cons b t ih =>
    simp only [votes, List.map_cons, run]
    exact ih _

theorem votesFor_votes (k : String) (bs : List String) : votesFor k (votes bs) = bs.count k := by
  induction bs with
  | nil => rfl
  | cons b t ih =>
    simp only [votes, List.map_cons, votesFor, List.count_cons] at ih ⊢
    rw [ih]
    by_cases h : b = k
    · simp [h]; omega
    · simp [h]

theorem updater_get_of_all_ok (fail : String → Bool) (c : Counts)
    (h : ∀ k ∈ c.keys, fail k = false) (k : String) : (updater fail c).1.get k = 0 := by
  rw [updater_get]
  by_cases hk : k ∈ c.keys
  · simp [hk, h k hk]
  · simp [hk, Counts.get_zero_of_absent c k hk]

theorem nonZeroWritesFor_append (x : String) (a b : List Write) :
    nonZeroWritesFor x (a ++ b) = nonZeroWritesFor x a ++ nonZeroWritesFor x b := by
  simp [nonZeroWritesFor, List.filter_append]

theorem nonZeroWritesFor_writes (fail : String → Bool) (m : GoMap) (h : GoMap.WF m)
    (x : String) :
    nonZeroWritesFor x (m.map (writeOf fail)) =
      if GoMap.get m x ≠ 0 then [⟨x, GoMap.get m x, !fail x⟩] else [] := by
  induction m with
  | nil => simp [nonZeroWritesFor, GoMap.get, GoMap.lookup]
  | cons e t ih =>
    obtain ⟨o, v⟩ := e
    unfold GoMap.WF at h
    rw [GoMap.keys_cons, List.nodup_cons] at h
    have iht := ih h.2
    unfold nonZeroWritesFor at iht ⊢
    rw [List.map_cons, List.filter_cons, iht]
    by_cases hk : o = x
    · subst hk
      have hz : GoMap.get t o = 0 := GoMap.get_of_not_mem t o h.1
      by_cases hv : v = 0
      · simp [writeOf, GoMap.get, GoMap.lookup, hv]
        simpa [GoMap.get] using hz
      · simp only [GoMap.get] at hz
        simp [writeOf, GoMap.get, GoMap.lookup, hv, hz]
    · simp [writeOf, GoMap.get, GoMap.lookup, hk]

theorem nonZeroWritesFor_updater (fail : String → Bool) (c : Counts) (h : c.WF) (x : String) :
    nonZeroWritesFor x (updater fail c).2 =
      if c.get x ≠ 0 then [⟨x, c.get x, !fail x⟩] else [] := by
  rw [updater_writes]
  cases c with
  | none => simp [nonZeroWritesFor, Counts.get]
  | some m => simpa [Counts.get] using nonZeroWritesFor_writes fail m h x


/-! ## The steps of `updater` -/

theorem rangeSteps_state (fail : String → Bool) (es : List (String × Int)) (m : GoMap) :
    (rangeSteps fail es m).1 = (rangeCounts fail es m).1 ∧
      (rangeSteps fail es m).2.2 = (rangeCounts fail es m).2.2 := by
  induction es generalizing m with
  | nil => exact ⟨rfl, rfl⟩
  | cons e t ih =>
    obtain ⟨o, c⟩ := e
    by_cases h : fail o = true
    · simp only [rangeSteps, rangeCounts, h, if_true]
      exact ⟨(ih m).1, trivial⟩
    · simp only [Bool.not_eq_true] at h
      simp only [rangeSteps, rangeCounts, h, Bool.false_eq_true, if_false]
      exact ih _

theorem rangeSteps_writes (fail : String → Bool) (es : List (String × Int)) (m : GoMap) :
    (rangeSteps fail es m).2.1.filterMap LockEvent.write? = (rangeCounts fail es m).2.1 := by
  induction es generalizing m with
  | nil => rfl
  | cons e t ih =>
    obtain ⟨o, c⟩ := e
    by_cases h : fail o = true
    · simp only [rangeSteps, rangeCounts, h, if_true, List.filterMap_cons, LockEvent.write?, ih]
    · simp only [Bool.not_eq_true] at h
      simp only [rangeSteps, rangeCounts, h, Bool.false_eq_true, if_false, List.filterMap_cons,
        LockEvent.write?, ih]

theorem rangeSteps_zeroed (fail : String → Bool) (es : List (String × Int)) (m : GoMap) :
    (rangeSteps fail es m).2.1.filterMap LockEvent.zeroed? =
      ((rangeCounts fail es m).2.1.filter Write.ok).map Write.option := by
  induction es generalizing m with
  | nil => rfl
  | cons e t ih =>
    obtain ⟨o, c⟩ := e
    by_cases h : fail o = true
    · simp [rangeSteps, rangeCounts, h, List.filterMap_cons, LockEvent.zeroed?, ih]
    · simp only [Bool.not_eq_true] at h
      simp [rangeSteps, rangeCounts, h, List.filterMap_cons, LockEvent.zeroed?, ih]

theorem rangeSteps_inner (fail : String → Bool) (es : List (String × Int)) (m : GoMap) :
    ∀ e ∈ (rangeSteps fail es m).2.1, e ≠ LockEvent.lock ∧ e ≠ LockEvent.unlock := by
  induction es generalizing m with
  | nil => simp [rangeSteps]
  | cons e t ih =>
    obtain ⟨o, c⟩ := e
    by_cases h : fail o = true
    · simp only [rangeSteps, h, if_true, List.mem_cons]
      rintro e (rfl | he)
      · exact ⟨by simp, by simp⟩
      · exact ih m e he
    · simp only [Bool.not_eq_true] at h
      simp only [rangeSteps, h, Bool.false_eq_true, if_false, List.mem_cons]
      rintro e (rfl | rfl | he)
      · exact ⟨by simp, by simp⟩
      · exact ⟨by simp, by simp⟩
      · exact ih _ e he

theorem heldAtSteps_append_inner (held : Bool) (evs tail : List LockEvent)
    (h : ∀ e ∈ evs, e ≠ LockEvent.lock ∧ e ≠ LockEvent.unlock) :
    heldAtSteps held (evs ++ tail) = evs.map (fun e => (e, held)) ++ heldAtSteps held tail := by
  induction evs with
  | nil => rfl
  | cons e t ih =>
    have ht := ih (fun e he => h e (List.mem_cons_of_mem _ he))
    have he := h e (List.mem_cons_self _ _)
    cases e with
    | lock => exact absurd rfl he.1
    | unlock => exact absurd rfl he.2
    | updateAll w => simp [heldAtSteps, ht]
    | zero o => simp [heldAtSteps, ht]
    | reset => simp [heldAtSteps, ht]

theorem lockHeld_append_inner (held : Bool) (evs tail : List LockEvent)
    (h : ∀ e ∈ evs, e ≠ LockEvent.lock ∧ e ≠ LockEvent.unlock) :
    lockHeld held (evs ++ tail) = lockHeld held tail := by
  induction evs with
  | nil => rfl
  | cons e t ih =>
    have ht := ih (fun e he => h e (List.mem_cons_of_mem _ he))
    have he := h e (List.mem_cons_self _ _)
    cases e with
    | lock => exact absurd rfl he.1
    | unlock => exact absurd rfl he.2
    | updateAll w => simp [lockHeld, ht]
    | zero o => simp [lockHeld, ht]
    | reset => simp [lockHeld, ht]

theorem heldAtSteps_fst (held : Bool) (evs : List LockEvent) :
    (heldAtSteps held evs).map Prod.fst =
      evs.filter (fun e => decide (e ≠ LockEvent.lock) && decide (e ≠ LockEvent.unlock)) := by
  induction evs generalizing held with
  | nil => rfl
  | cons e t ih =>
    cases e with
    | lock => simp [heldAtSteps, ih]
    | unlock => simp [heldAtSteps, ih]
    | updateAll w => simp [heldAtSteps, ih]
    | zero o => simp [heldAtSteps, ih]
    | reset => simp [heldAtSteps, ih]

theorem updaterEvents_shape (fail : String → Bool) (c : Counts) :
    ∃ evs : List LockEvent, (∀ e ∈ evs, e ≠ LockEvent.lock ∧ e ≠ LockEvent.unlock) ∧
      updaterEvents fail c = LockEvent.lock :: (evs ++ [LockEvent.unlock]) := by
  unfold updaterEvents updaterRun
  cases c with
  | none => exact ⟨[], by simp, by simp [Counts.len]⟩
  | some m =>
    cases m with
    | nil => exact ⟨[], by simp, by simp [Counts.len]⟩
    | cons e t =>
      simp only [Counts.len, List.length_cons, Nat.succ_ne_zero, if_false]
      by_cases hok : (rangeSteps fail (e :: t) (e :: t)).2.2 = true
      · refine ⟨(rangeSteps fail (e :: t) (e :: t)).2.1 ++ [LockEvent.reset], ?_, ?_⟩
        · intro ev hev
          rw [List.mem_append, List.mem_singleton] at hev
          rcases hev with hev | rfl
          · exact rangeSteps_inner fail _ _ ev hev
          · exact ⟨by simp, by simp⟩
        · simp [hok]
      · refine ⟨(rangeSteps fail (e :: t) (e :: t)).2.1, rangeSteps_inner fail _ _, ?_⟩
        simp [hok]

theorem updaterRun_updater (fail : String → Bool) (c : Counts) :
    (updaterRun fail c).1 = (updater fail c).1 ∧
      (updaterEvents fail c).filterMap LockEvent.write? = (updater fail c).2 ∧
      (updaterEvents fail c).filterMap LockEvent.zeroed? =
        ((updater fail c).2.filter Write.ok).map Write.option := by
  unfold updaterEvents updaterRun updater
  cases c with
  | none => simp [Counts.len, LockEvent.write?, LockEvent.zeroed?]
  | some m =>
    cases m with
    | nil => simp [Counts.len, LockEvent.write?, LockEvent.zeroed?]
    | cons e t =>
      simp only [Counts.len, List.length_cons, Nat.succ_ne_zero, if_false]
      have hs := rangeSteps_state fail (e :: t) (e :: t)
      have hw := rangeSteps_writes fail (e :: t) (e :: t)
      have hz := rangeSteps_zeroed fail (e :: t) (e :: t)
      rw [← hs.2]
      by_cases hok : (rangeSteps fail (e :: t) (e :: t)).2.2 = true
      · simp [hok, List.filterMap_append, LockEvent.write?, LockEvent.zeroed?, hw, hz]
      · simp [hok, List.filterMap_append, LockEvent.write?, LockEvent.zeroed?, hw, hz, hs.1]

theorem persisted_votes_flush (bs : List String) (k : String) :
    persisted k (run none (votes bs ++ [Event.tick allSucceed])).2 =
      wrapInt (bs.count k : Int) := by
  rw [run_append, run_votes]
  simp only [run, List.nil_append, List.append_nil]
  have hwf : (handleAll none bs).WF := handleAll_WF none bs trivial
  have hbal := updater_balance allSucceed (handleAll none bs) hwf k
  rw [updater_get_of_all_ok allSucceed _ (fun _ _ => rfl) k, add_zero] at hbal
  have h0 : Counts.get none k = 0 := rfl
  rw [hbal, handleAll_get none bs k (by rw [h0]; decide) (by rw [h0]; decide), h0, zero_add]

/-! ## The consumer: handler and `updater` -/

/-- C1, as the claim states it, fails: after `2^63` votes for cats with no
tick in between, the counter of cats has wrapped around to `-2^63`, and the
final tick, whose write succeeds, adds `-2^63` to cats, not the `2^63` votes
received. -/
theorem exactly_once_counting_counterexample :
    persisted "cats" (run none (votes (List.replicate 9223372036854775808 "cats") ++
        [Event.tick allSucceed])).2 = -9223372036854775808 ∧
      votesFor "cats" (votes (List.replicate 9223372036854775808 "cats")) =
        9223372036854775808 := by
  constructor
  · rw [persisted_votes_flush, List.count_replicate_self]
    decide
  · rw [votesFor_votes, List.count_replicate_self]

/-- C1, amended: exactly-once counting below the overflow of `int`. From the
nil tally, after any finite sequence of handler invocations and ticks whose
writes succeed or fail arbitrarily, in which at most `maxInt` (`2^63 - 1`)
vote events are received for the option, followed by a tick in which every
write succeeds, the deltas of the successful writes for the option add up to
the number of vote events received for it, and nothing is left pending. -/
theorem exactly_once_counting (es : List Event) (final : String → Bool)
    (hfinal : ∀ k ∈ (run none es).1.keys, final k = false) (option : String)
    (hbound : (votesFor option es : Int) ≤ maxInt) :
    persisted option (run none (es ++ [Event.tick final])).2 = (votesFor option es : Int) ∧
      (run none (es ++ [Event.tick final])).1.get option = 0 := by
  have hwf : (run none es).1.WF := run_WF none es trivial
  have h0 : Counts.get none option = 0 := rfl
  have hbal := run_balance none es trivial option (by rw [h0]) (by rw [h0, zero_add]; exact hbound)
  have hlast := updater_balance final (run none es).1 hwf option
  have hzero := updater_get_of_all_ok final (run none es).1 hfinal option
  rw [run_append]
  simp only [run, List.append_nil]
  refine ⟨?_, hzero⟩
  rw [persisted_append]
  rw [hzero, add_zero] at hlast
  rw [hlast, hbal, h0, zero_add]

/-- Witness for C1: two votes for cats and one for dogs, with a tick in
between in which the write for dogs fails. -/
theorem exactly_once_counting_witness :
    (∀ k ∈ (run none [Event.vote "cats", Event.vote "dogs",
        Event.tick (fun o => decide (o = "dogs")), Event.vote "cats"]).1.keys,
        allSucceed k = false) ∧
      persisted "dogs" (run none ([Event.vote "cats", Event.vote "dogs",
        Event.tick (fun o => decide (o = "dogs")), Event.vote "cats"] ++
        [Event.tick allSucceed])).2 = 1 ∧
      persisted "cats" (run none ([Event.vote "cats", Event.vote "dogs",
        Event.tick (fun o => decide (o = "dogs")), Event.vote "cats"] ++
        [Event.tick allSucceed])).2 = 2 :=
  ⟨fun _ _ => rfl,
    (exactly_once_counting [Event.vote "cats", Event.vote "dogs",
      Event.tick (fun o => decide (o = "dogs")), Event.vote "cats"] allSucceed
      (fun _ _ => rfl) "dogs" (by decide)).1,
    (exactly_once_counting [Event.vote "cats", Event.vote "dogs",
      Event.tick (fun o => decide (o = "dogs")), Event.vote "cats"] allSucceed
      (fun _ _ => rfl) "cats" (by decide)).1⟩

/-- C2: flushing an empty tally performs no storage call. When `counts` is
nil or has no entries, one run of `updater` issues no `UpdateAll` (it only
takes and releases the mutex) and leaves `counts` as it was. -/
theorem flush_empty_tally (fail : String → Bool) (c : Counts)
    (h : c = none ∨ c = some []) :
    (updater fail c).2 = [] ∧ (updater fail c).1 = c ∧
      updaterEvents fail c = [LockEvent.lock, LockEvent.unlock] := by
  rcases h with rfl | rfl <;> simp [updaterEvents, updaterRun, updater, Counts.len]

/-- Witness for C2: the nil map and the empty map. -/
theorem flush_empty_tally_witness :
    ((updater allSucceed none).2 = [] ∧ (updater allSucceed none).1 = none ∧
      updaterEvents allSucceed none = [LockEvent.lock, LockEvent.unlock]) ∧
    ((updater allSucceed (some [])).2 = [] ∧ (updater allSucceed (some [])).1 = some [] ∧
      updaterEvents allSucceed (some []) = [LockEvent.lock, LockEvent.unlock]) :=
  ⟨flush_empty_tally allSucceed none (Or.inl rfl),
    flush_empty_tally allSucceed (some []) (Or.inr rfl)⟩

/-- C7, as the claim states it, fails: when the entry of cats holds the
largest `int`, the handler leaves the smallest `int` in it, not the previous
value plus 1. -/
theorem handler_contract_counterexample :
    (handler (some [("cats", 9223372036854775807)]) "cats").1.lookup "cats" =
        some (-9223372036854775808) ∧
      (handler (some [("cats", 9223372036854775807)]) "cats").1.lookup "cats" ≠
        some (9223372036854775807 + 1) := by
  decide

/-- C7, amended: the handler contract in `int` arithmetic. For every tally
and every payload, the empty one included, the handler returns nil and the
entry of the payload afterwards holds its previous value (0 when absent or
when the map is nil) plus 1, reduced to an `int`: exactly the previous value
plus 1 when that value is an `int` below `maxInt`, and `minInt` when it is
`maxInt`. Every other key reads as before, present or absent. -/
theorem handler_contract (c : Counts) (body : String) :
    (handler c body).2 = none ∧
      (handler c body).1.lookup body = some (wrapInt (c.get body + 1)) ∧
      (minInt ≤ c.get body → c.get body < maxInt →
        (handler c body).1.lookup body = some (c.get body + 1)) ∧
      (c.get body = maxInt → (handler c body).1.lookup body = some minInt) ∧
      ∀ k, k ≠ body →
        (handler c body).1.lookup k = c.lookup k ∧ (handler c body).1.get k = c.get k := by
  refine ⟨rfl, handler_lookup_self c body, ?_, ?_, ?_⟩
  · intro hlo hhi
    rw [handler_lookup_self, wrapInt_of_range _ (by omega) (by omega)]
  · intro hmax
    rw [handler_lookup_self, hmax]
    rfl
  · intro k hk
    refine ⟨handler_lookup_ne c body k hk, ?_⟩
    rw [handler_get]; simp [hk]

/-- Witness for C7: the empty payload on the nil map, and a payload that
is no known option next to an existing entry. -/
theorem handler_contract_witness :
    (handler none "").1 = some [("", 1)] ∧
      (handler (some [("cats", 3)]) "cats").1.lookup "cats" = some (3 + 1) ∧
      (handler (some [("cats", 3)]) "unknown").1.lookup "cats" = some 3 :=
  ⟨by decide,
    (handler_contract (some [("cats", 3)]) "cats").2.2.1 (by decide) (by decide),
    ((handler_contract (some [("cats", 3)]) "unknown").2.2.2.2 "cats" (by decide)).1.trans
      (by decide)⟩

/-- C3, as the claim states it, fails: with cats pending at the largest
`int` and its write failing, cats stays pending at that amount, but one
later vote for cats does not add on top of it: the counter wraps around to
the smallest `int`, and the next tick writes cats with `-2^63`. -/
theorem failed_write_kept_for_retry_counterexample :
    (updater (fun _ => true) (some [("cats", 9223372036854775807)])).1 =
        some [("cats", 9223372036854775807)] ∧
      (handleAll (updater (fun _ => true) (some [("cats", 9223372036854775807)])).1
        ["cats"]).get "cats" = -9223372036854775808 ∧
      (updater allSucceed
        (handleAll (updater (fun _ => true) (some [("cats", 9223372036854775807)])).1
          ["cats"])).2 = [⟨"cats", -9223372036854775808, true⟩] := by
  decide

/-- C3, amended: a failed write is kept for retry, in `int` arithmetic. When
the write for `x` fails in a tick, the amount attempted is the pending delta
of `x`, and `x` is pending with exactly that amount after the tick (the
handler cannot run during the tick, which holds the mutex). The votes for
`x` that arrive afterwards are added to it as `int` increments: the pending
delta is the attempted amount plus the number of those votes as long as the
sum does not exceed `maxInt`, and wraps around beyond. The next tick
attempts `x` with that merged amount, in one write. The options whose write
succeeded in the first tick are written with their own amount and read 0
afterwards. -/
theorem failed_write_kept_for_retry (fail next : String → Bool) (c : Counts) (h : c.WF)
    (x : String) (hx : x ∈ c.keys) (hfail : fail x = true)
    (hlo : minInt ≤ c.get x) (hhi : c.get x ≤ maxInt) (bodies : List String) :
    (⟨x, c.get x, false⟩ : Write) ∈ (updater fail c).2 ∧
      (updater fail c).1.lookup x = some (c.get x) ∧
      (handleAll (updater fail c).1 bodies).get x =
        wrapInt (c.get x + (bodies.count x : Int)) ∧
      (c.get x + (bodies.count x : Int) ≤ maxInt →
        (handleAll (updater fail c).1 bodies).get x = c.get x + (bodies.count x : Int)) ∧
      (⟨x, (handleAll (updater fail c).1 bodies).get x, !next x⟩ : Write) ∈
        (updater next (handleAll (updater fail c).1 bodies)).2 ∧
      (∀ w ∈ (updater next (handleAll (updater fail c).1 bodies)).2, w.option = x →
        w.delta = (handleAll (updater fail c).1 bodies).get x) ∧
      ∀ y ∈ c.keys, fail y = false →
        (⟨y, c.get y, true⟩ : Write) ∈ (updater fail c).2 ∧
          (updater fail c).1.lookup y = some 0 := by
  have hex : ∃ k ∈ c.keys, fail k = true := ⟨x, hx, hfail⟩
  have hlook : (updater fail c).1.lookup x = some (c.get x) := by
    rw [updater_lookup_of_fail fail c hex x]
    simp [hfail, Counts.lookup_of_mem_keys c x hx]
  have hget : (updater fail c).1.get x = c.get x := by
    rw [Counts.get_eq, hlook]; rfl
  have hwf1 : (updater fail c).1.WF := updater_WF fail c h
  have hwf2 : (handleAll (updater fail c).1 bodies).WF := handleAll_WF _ bodies hwf1
  have hmerged : (handleAll (updater fail c).1 bodies).get x =
      wrapInt (c.get x + (bodies.count x : Int)) := by
    rw [handleAll_get _ bodies x (hget ▸ hlo) (hget ▸ hhi), hget]
  have hx2 : x ∈ (handleAll (updater fail c).1 bodies).keys := by
    rw [handleAll_mem_keys, updater_keys_of_fail fail c hex]
    exact Or.inl hx
  refine ⟨?_, hlook, hmerged, ?_, ?_, ?_, ?_⟩
  · rw [mem_updater_writes fail c h]
    simp [hx, hfail]
  · intro hsum
    rw [handleAll_get_of_bound _ bodies x (hget ▸ hlo) (hget ▸ hsum), hget]
  · rw [mem_updater_writes next _ hwf2]
    exact ⟨hx2, rfl, rfl⟩
  · intro w hw hwx
    rw [mem_updater_writes next _ hwf2] at hw
    rw [hw.2.1, hwx]
  · intro y hy hfy
    constructor
    · rw [mem_updater_writes fail c h]
      simp [hy, hfy]
    · rw [updater_lookup_of_fail fail c hex y]
      simp [hy, hfy]

/-- Witness for C3: cats=3, dogs=1 and the write for dogs fails. The only
successful write is cats +3, dogs stays pending at 1, and after two more
votes for dogs the pending delta of dogs is 3. -/
theorem failed_write_kept_for_retry_witness :
    (updater (fun o => decide (o = "dogs")) (some [("cats", 3), ("dogs", 1)])).2.filter
        (fun w => w.ok) = [⟨"cats", 3, true⟩] ∧
      (updater (fun o => decide (o = "dogs")) (some [("cats", 3), ("dogs", 1)])).1 =
        some [("cats", 0), ("dogs", 1)] ∧
      (handleAll (updater (fun o => decide (o = "dogs"))
        (some [("cats", 3), ("dogs", 1)])).1 ["dogs", "cats", "dogs"]).get "dogs" =
        1 + ((["dogs", "cats", "dogs"].count "dogs" : Nat) : Int) ∧
      (updater allSucceed (handleAll (updater (fun o => decide (o = "dogs"))
        (some [("cats", 3), ("dogs", 1)])).1 ["dogs", "cats", "dogs"])).2 =
        [⟨"cats", 1, true⟩, ⟨"dogs", 3, true⟩] :=
  ⟨by decide, by decide,
    (failed_write_kept_for_retry (fun o => decide (o = "dogs")) allSucceed
      (some [("cats", 3), ("dogs", 1)]) (by decide) "dogs" (by decide) (by decide)
      (by decide) (by decide) ["dogs", "cats", "dogs"]).2.2.2.1 (by decide),
    by decide⟩

/-- C4: no double write. When `x` has the non-zero pending delta `d` and its
write succeeds in a tick, a second tick, with only votes for other options in
between, issues no write with a non-zero delta for `x`, whatever the outcomes
of the other writes of the two ticks; over the two ticks the writes for `x`
with a non-zero delta are the single write of `d`. -/
theorem no_double_write (first second : String → Bool) (c : Counts) (h : c.WF)
    (x : String) (hd : c.get x ≠ 0) (hok : first x = false)
    (bodies : List String) (hb : x ∉ bodies) :
    nonZeroWritesFor x
        (updater second (handleAll (updater first c).1 bodies)).2 = [] ∧
      nonZeroWritesFor x ((updater first c).2 ++
        (updater second (handleAll (updater first c).1 bodies)).2) =
        [⟨x, c.get x, true⟩] := by
  have hx : x ∈ c.keys := Counts.mem_keys_of_get_ne_zero c x hd
  have hwf1 : (updater first c).1.WF := updater_WF first c h
  have hwf2 : (handleAll (updater first c).1 bodies).WF := handleAll_WF _ bodies hwf1
  have hzero : (handleAll (updater first c).1 bodies).get x = 0 := by
    rw [handleAll_get_of_not_mem _ bodies x hb, updater_get]
    simp [hx, hok]
  have hsecond : nonZeroWritesFor x
      (updater second (handleAll (updater first c).1 bodies)).2 = [] := by
    rw [nonZeroWritesFor_updater second _ hwf2, hzero]
    simp
  refine ⟨hsecond, ?_⟩
  rw [nonZeroWritesFor_append, hsecond, nonZeroWritesFor_updater first c h]
  simp [hd, hok]

/-- Witness for C4: cats=3, dogs=1, the write for dogs fails in both ticks
and a vote for dogs arrives in between; cats is written once, with 3. -/
theorem no_double_write_witness :
    nonZeroWritesFor "cats" ((updater (fun o => decide (o = "dogs"))
        (some [("cats", 3), ("dogs", 1)])).2 ++
      (updater (fun o => decide (o = "dogs"))
        (handleAll (updater (fun o => decide (o = "dogs"))
          (some [("cats", 3), ("dogs", 1)])).1 ["dogs"])).2) = [⟨"cats", 3, true⟩] :=
  (no_double_write (fun o => decide (o = "dogs")) (fun o => decide (o = "dogs"))
    (some [("cats", 3), ("dogs", 1)]) (by decide) "cats" (by decide) (by decide)
    ["dogs"] (by decide)).2

/-- C5, as the claim states it, fails: with cats=3 and dogs=1 counted by the
handler and both writes succeeding, the writes are cats +3 and dogs +1, and
afterwards `counts` is nil: cats, which had an entry, has none. -/
theorem entries_persist_counterexample :
    (handleAll none ["cats", "cats", "dogs", "cats"]).lookup "cats" = some 3 ∧
      (updater allSucceed (handleAll none ["cats", "cats", "dogs", "cats"])).2 =
        [⟨"cats", 3, true⟩, ⟨"dogs", 1, true⟩] ∧
      (updater allSucceed (handleAll none ["cats", "cats", "dogs", "cats"])).1 = none ∧
      (updater allSucceed (handleAll none ["cats", "cats", "dogs", "cats"])).1.lookup "cats" ≠
        some 0 := by
  decide

/-- C5, amended: a tick keeps the entries only when one of its writes fails.
After a tick in which some write fails, `counts` has the same keys as
before, each option whose write succeeded holding 0 and each option whose
write failed holding its previous value. After a tick on a non-empty tally
in which every write succeeds, `counts` is nil: no option has an entry, and
each reads as 0. -/
theorem entries_after_tick (fail : String → Bool) (c : Counts) :
    ((∃ k ∈ c.keys, fail k = true) →
        (updater fail c).1.keys = c.keys ∧
        ∀ k ∈ c.keys,
          (updater fail c).1.lookup k = some (if fail k = true then c.get k else 0)) ∧
      ((∀ k ∈ c.keys, fail k = false) → c.len ≠ 0 →
        (updater fail c).1 = none ∧
        ∀ k, (updater fail c).1.lookup k = none ∧ (updater fail c).1.get k = 0) := by
  constructor
  · intro hex
    refine ⟨updater_keys_of_fail fail c hex, ?_⟩
    intro k hk
    rw [updater_lookup_of_fail fail c hex k]
    by_cases hf : fail k = true
    · simp [hf, Counts.lookup_of_mem_keys c k hk]
    · simp only [Bool.not_eq_true] at hf
      simp [hk, hf]
  · intro hall hlen
    have hnil := updater_of_all_ok fail c hall hlen
    refine ⟨hnil, ?_⟩
    intro k
    rw [hnil]
    exact ⟨rfl, rfl⟩

/-- Witness for C5: with cats=3 and dogs=1, a tick in which the write for
dogs fails keeps both entries, cats at 0 and dogs at 1; a tick in which both
writes succeed leaves the nil map. -/
theorem entries_after_tick_witness :
    (updater (fun o => decide (o = "dogs")) (some [("cats", 3), ("dogs", 1)])).1.keys =
        ["cats", "dogs"] ∧
      (updater (fun o => decide (o = "dogs")) (some [("cats", 3), ("dogs", 1)])).1 =
        some [("cats", 0), ("dogs", 1)] ∧
      (updater allSucceed (some [("cats", 3), ("dogs", 1)])).1 = none :=
  ⟨((entries_after_tick (fun o => decide (o = "dogs")) (some [("cats", 3), ("dogs", 1)])).1
      ⟨"dogs", by decide, by decide⟩).1,
    by decide,
    ((entries_after_tick allSucceed (some [("cats", 3), ("dogs", 1)])).2
      (fun _ _ => rfl) (by decide)).1⟩

/-- C9, as the claim states it, fails: after a vote for cats and one for
dogs and a tick in which the write for dogs fails, the pending delta of cats
is 0, and the next tick still issues a write for cats, with the amount 0. -/
theorem writes_only_non_zero_counterexample :
    (run none [Event.vote "cats", Event.vote "dogs",
        Event.tick (fun o => decide (o = "dogs"))]).1.get "cats" = 0 ∧
      (⟨"cats", 0, true⟩ : Write) ∈
        (updater allSucceed (run none [Event.vote "cats", Event.vote "dogs",
          Event.tick (fun o => decide (o = "dogs"))]).1).2 := by
  decide

/-- C9, amended: a tick writes every entry. Each write issued by `updater`
is for an option that has an entry in `counts` and carries exactly the value
of that entry, which can be 0; every entry is written once, in the order of
the range; an option with no entry causes no storage call. -/
theorem tick_writes_every_entry (fail : String → Bool) (c : Counts) (h : c.WF) :
    (∀ w ∈ (updater fail c).2, w.option ∈ c.keys ∧ w.delta = c.get w.option) ∧
      (updater fail c).2.map Write.option = c.keys ∧
      (∀ k ∈ c.keys, (⟨k, c.get k, !fail k⟩ : Write) ∈ (updater fail c).2) ∧
      ∀ k, k ∉ c.keys → ∀ w ∈ (updater fail c).2, w.option ≠ k := by
  refine ⟨?_, updater_writes_options fail c, ?_, ?_⟩
  · intro w hw
    rw [mem_updater_writes fail c h] at hw
    exact ⟨hw.1, hw.2.1⟩
  · intro k hk
    rw [mem_updater_writes fail c h]
    exact ⟨hk, rfl, rfl⟩
  · intro k hk w hw hwk
    rw [mem_updater_writes fail c h] at hw
    exact hk (hwk ▸ hw.1)

/-- Witness for C9: the tally cats=0, dogs=1 left by a tick in which the
write for dogs failed; both entries are written, cats with 0. -/
theorem tick_writes_every_entry_witness :
    (updater allSucceed (some [("cats", 0), ("dogs", 1)])).2.map Write.option =
        ["cats", "dogs"] ∧
      (⟨"cats", 0, true⟩ : Write) ∈ (updater allSucceed (some [("cats", 0), ("dogs", 1)])).2 :=
  ⟨(tick_writes_every_entry allSucceed (some [("cats", 0), ("dogs", 1)]) (by decide)).2.1,
    (tick_writes_every_entry allSucceed (some [("cats", 0), ("dogs", 1)]) (by decide)).2.2.1
      "cats" (by decide)⟩

/-- C10, as the claim states it, fails: in a run of `updater` on the tally
cats=1 the mutex is taken first and released last, and it is held when the
one `UpdateAll` is called. -/
theorem lock_released_before_write_counterexample :
    updaterEvents allSucceed (some [("cats", 1)]) =
        [LockEvent.lock, LockEvent.updateAll ⟨"cats", 1, true⟩, LockEvent.zero "cats",
          LockEvent.reset, LockEvent.unlock] ∧
      (LockEvent.updateAll ⟨"cats", 1, true⟩, true) ∈
        heldAtSteps false (updaterEvents allSucceed (some [("cats", 1)])) := by
  decide

/-- C10, amended: the mutex is held across every storage write. The run of
`updater` with its steps recorded ends in the same `counts` as `updater` and
makes the same `UpdateAll` calls, in the same order, with one assignment
`counts[option] = 0` per successful call. Each run takes `countsLock` once,
as its first step, and releases it once, as its last, also on an empty
tally; every `UpdateAll`, every `counts[option] = 0` and the final
`counts = nil` is made with the mutex held, and the mutex is free again
after the run. -/
theorem lock_held_across_writes (fail : String → Bool) (c : Counts) :
    (updaterRun fail c).1 = (updater fail c).1 ∧
      (updaterEvents fail c).filterMap LockEvent.write? = (updater fail c).2 ∧
      (updaterEvents fail c).filterMap LockEvent.zeroed? =
        ((updater fail c).2.filter Write.ok).map Write.option ∧
      (∀ w ∈ (updater fail c).2,
        (LockEvent.updateAll w, true) ∈ heldAtSteps false (updaterEvents fail c)) ∧
      (∀ p ∈ heldAtSteps false (updaterEvents fail c), p.2 = true) ∧
      (heldAtSteps false (updaterEvents fail c)).map Prod.fst =
        (updaterEvents fail c).filter
          (fun e => decide (e ≠ LockEvent.lock) && decide (e ≠ LockEvent.unlock)) ∧
      (updaterEvents fail c).head? = some LockEvent.lock ∧
      (updaterEvents fail c).getLast? = some LockEvent.unlock ∧
      (updaterEvents fail c).count LockEvent.lock = 1 ∧
      (updaterEvents fail c).count LockEvent.unlock = 1 ∧
      lockHeld false (updaterEvents fail c) = false := by
  have hrun := updaterRun_updater fail c
  obtain ⟨evs, hin, hshape⟩ := updaterEvents_shape fail c
  have hsteps : heldAtSteps false (updaterEvents fail c) = evs.map (fun e => (e, true)) := by
    rw [hshape]
    simp only [heldAtSteps]
    rw [heldAtSteps_append_inner true evs _ hin]
    simp [heldAtSteps]
  have hl : evs.count LockEvent.lock = 0 :=
    List.count_eq_zero_of_not_mem (fun hm => (hin _ hm).1 rfl)
  have hu : evs.count LockEvent.unlock = 0 :=
    List.count_eq_zero_of_not_mem (fun hm => (hin _ hm).2 rfl)
  refine ⟨hrun.1, hrun.2.1, hrun.2.2, ?_, ?_, heldAtSteps_fst false _, ?_, ?_, ?_, ?_, ?_⟩
  · intro w hw
    rw [← hrun.2.1, List.mem_filterMap] at hw
    obtain ⟨e, he, hew⟩ := hw
    have hee : e = LockEvent.updateAll w := by
      cases e <;> simp [LockEvent.write?] at hew
      rw [hew]
    subst hee
    rw [hshape] at he
    rw [hsteps, List.mem_map]
    refine ⟨LockEvent.updateAll w, ?_, rfl⟩
    simpa using he
  · intro p hp
    rw [hsteps, List.mem_map] at hp
    obtain ⟨e, _, rfl⟩ := hp
    rfl
  · rw [hshape]; rfl
  · rw [hshape, ← List.cons_append]
    exact List.getLast?_concat _
  · rw [hshape]
    simp [List.count_cons, List.count_append, hl]
  · rw [hshape]
    simp [List.count_cons, List.count_append, hu]
  · rw [hshape]
    simp only [lockHeld]
    rw [lockHeld_append_inner true evs _ hin]
    rfl

/-! ## The stream reader -/

theorem sendVotes_eq_filter (toLower : String → String) (text : String)
    (options : List String) :
    sendVotes toLower text options =
      options.filter (fun option => contains (toLower text) (toLower option)) := by
  induction options with
  | nil => rfl
  | cons o t ih =>
    by_cases h : contains (toLower text) (toLower o) = true
    · simp [sendVotes, h, ih]
    · simp [sendVotes, h, ih]

theorem closeVotes_not_mem_readFromTwitter (toLower : String → String) (authOk : Bool)
    (s : Session) : Action.closeVotes ∉ (readFromTwitter toLower authOk s).1 := by
  unfold readFromTwitter
  cases s.options with
  | none => simp
  | some options =>
    cases authOk with
    | false => simp
    | true =>
      cases s.response with
      | none => simp
      | some status =>
        by_cases h : status = 200 <;> simp [h]

theorem readFromTwitter_head (toLower : String → String) (authOk : Bool) (s : Session) :
    ∃ tail, (readFromTwitter toLower authOk s).1 = Action.loadOptions :: tail := by
  unfold readFromTwitter
  cases s.options with
  | none => exact ⟨[], rfl⟩
  | some options =>
    cases authOk with
    | false => exact ⟨_, rfl⟩
    | true =>
      cases s.response with
      | none => exact ⟨_, rfl⟩
      | some status =>
        by_cases h : status = 200
        · simp only [h, if_true]
          exact ⟨_, rfl⟩
        · simp only [h, if_false]
          exact ⟨_, rfl⟩

theorem readFromTwitter_returns (toLower : String → String) (authOk : Bool) (s : Session) :
    (readFromTwitter toLower authOk s).2 = true ↔ s.options = none ∨ authOk = true := by
  unfold readFromTwitter
  cases s.options with
  | none => simp
  | some options =>
    cases authOk with
    | false => simp
    | true =>
      cases s.response with
      | none => simp
      | some status =>
        by_cases h : status = 200 <;> simp [h]

theorem readFromTwitter_request (toLower : String → String) (s : Session)
    (options : List String) (h : s.options = some options) :
    ∃ tail, (readFromTwitter toLower true s).1 =
      Action.loadOptions :: Action.doRequest :: tail := by
  unfold readFromTwitter
  rw [h]
  cases s.response with
  | none => exact ⟨_, rfl⟩
  | some status =>
    by_cases hs : status = 200
    · simp only [hs, if_true]
      exact ⟨_, rfl⟩
    · simp only [hs, if_false]
      exact ⟨_, rfl⟩

theorem twitterStream_cons (toLower : String → String) (authOk done : Bool) (c : Cycle)
    (rest : List Cycle) :
    twitterStream toLower authOk done (c :: rest) =
      if (readFromTwitter toLower authOk c.session).2 = true then
        (readFromTwitter toLower authOk c.session).1 ++
          (if (done || c.cancelled) = true then [Action.closeVotes]
            else twitterStream toLower authOk c.cancelledLate rest)
      else (readFromTwitter toLower authOk c.session).1 := rfl

theorem twitterStream_count_close (toLower : String → String) (authOk done : Bool)
    (script : List Cycle) :
    (twitterStream toLower authOk done script).count Action.closeVotes ≤ 1 := by
  induction script generalizing done with
  | nil => simp [twitterStream]
  | cons c rest ih =>
    have h0 : (readFromTwitter toLower authOk c.session).1.count Action.closeVotes = 0 :=
      List.count_eq_zero_of_not_mem
        (closeVotes_not_mem_readFromTwitter toLower authOk c.session)
    rw [twitterStream_cons]
    by_cases hr : (readFromTwitter toLower authOk c.session).2 = true
    · rw [if_pos hr, List.count_append, h0, zero_add]
      by_cases hd : (done || c.cancelled) = true
      · rw [if_pos hd]
        simp
      · rw [if_neg hd]
        exact ih _
    · rw [if_neg hr, h0]
      exact Nat.zero_le 1

theorem twitterStream_close_last (toLower : String → String) (authOk done : Bool)
    (script : List Cycle)
    (h : Action.closeVotes ∈ twitterStream toLower authOk done script) :
    (twitterStream toLower authOk done script).getLast? = some Action.closeVotes ∧
      everCancelled done script = true := by
  induction script generalizing done with
  | nil => simp [twitterStream] at h
  | cons c rest ih =>
    rw [twitterStream_cons] at h ⊢
    have hno := closeVotes_not_mem_readFromTwitter toLower authOk c.session
    by_cases hr : (readFromTwitter toLower authOk c.session).2 = true
    · rw [if_pos hr] at h ⊢
      by_cases hd : (done || c.cancelled) = true
      · rw [if_pos hd]
        refine ⟨List.getLast?_concat _, ?_⟩
        simp only [everCancelled, hd, Bool.true_or]
      · rw [if_neg hd] at h ⊢
        rw [List.mem_append] at h
        rcases h with h | h
        · exact absurd h hno
        · have hne : twitterStream toLower authOk c.cancelledLate rest ≠ [] :=
            List.ne_nil_of_mem h
          rw [List.getLast?_append_of_ne_nil _ hne]
          refine ⟨(ih _ h).1, ?_⟩
          simp only [everCancelled, (ih _ h).2, Bool.or_true]
    · rw [if_neg hr] at h
      exact absurd h hno

/-- C6, as the claim states it, fails: when the option list holds cats
twice, as happens when two polls share the option, a tweet that matches cats
makes the reader send cats twice: the two vote events are not distinct. -/
theorem option_matching_counterexample :
    (readFromTwitter lowerAscii true
        ⟨some ["cats", "dogs", "cats"], some 200, [some "I love CATS"]⟩).1 =
      [Action.loadOptions, Action.doRequest, Action.send "cats", Action.send "cats"] ∧
    sendVotes lowerAscii "I love CATS" ["cats", "dogs", "cats"] = ["cats", "cats"] ∧
    ¬ (sendVotes lowerAscii "I love CATS" ["cats", "dogs", "cats"]).Nodup := by
  decide

/-- C6, amended: option matching in the stream reader. For every decoded
text and every option list, the votes sent for the record are the entries of
the list, in list order, whose lower-cased form is a substring of the
lower-cased text: one send per matching entry, taken from the list without
reordering, none when no entry matches. The votes of a record are pairwise
distinct when the list holds no option twice; an option that the list holds
twice is sent twice. In a session with status 200 the reader sends the votes
of a decoded record on `votes`, after the request and before those of the
records that follow. -/
theorem option_matching (toLower : String → String) (text : String) (options : List String)
    (rest : List (Option String)) :
    sendVotes toLower text options = matchedOptions toLower text options ∧
      (sendVotes toLower text options).length =
        options.countP (fun o => decide ((toLower o).data <:+: (toLower text).data)) ∧
      (sendVotes toLower text options).Sublist options ∧
      (options.Nodup → (sendVotes toLower text options).Nodup) ∧
      (∀ o, (sendVotes toLower text options).count o =
        if (toLower o).data <:+: (toLower text).data then options.count o else 0) ∧
      ((∀ o ∈ options, ¬ (toLower o).data <:+: (toLower text).data) →
        sendVotes toLower text options = []) ∧
      decodeLoop toLower options (some text :: rest) =
        matchedOptions toLower text options ++ decodeLoop toLower options rest ∧
      readFromTwitter toLower true ⟨some options, some 200, some text :: rest⟩ =
        (Action.loadOptions :: Action.doRequest ::
          ((matchedOptions toLower text options).map Action.send ++
            (decodeLoop toLower options rest).map Action.send), true) := by
  have heq : sendVotes toLower text options = matchedOptions toLower text options := by
    rw [sendVotes_eq_filter]
    rfl
  refine ⟨heq, ?_, ?_, ?_, ?_, ?_, ?_, ?_⟩
  · rw [heq, matchedOptions, List.countP_eq_length_filter]
  · rw [heq]
    exact List.filter_sublist options
  · intro hn
    rw [heq]
    exact hn.sublist (List.filter_sublist options)
  · intro o
    rw [heq, matchedOptions]
    by_cases hm : (toLower o).data <:+: (toLower text).data
    · rw [if_pos hm]
      exact List.count_filter (by simpa using hm)
    · rw [if_neg hm]
      apply List.count_eq_zero_of_not_mem
      intro hmem
      rw [List.mem_filter] at hmem
      exact hm (by simpa using hmem.2)
  · intro hnone
    rw [heq, matchedOptions, List.filter_eq_nil_iff]
    intro o ho
    simpa using hnone o ho
  · simp only [decodeLoop, heq]
  · simp only [readFromTwitter, if_true, decodeLoop, heq, List.map_append]

/-- Witness for C6: a tweet that matches two of three options makes the
reader send two votes, in the order of the list; a tweet that matches none
sends nothing. -/
theorem option_matching_witness :
    readFromTwitter lowerAscii true
        ⟨some ["Cats", "birds", "dogs"], some 200, [some "I love CATS and Dogs"]⟩ =
      ([Action.loadOptions, Action.doRequest, Action.send "Cats", Action.send "dogs"],
        true) ∧
    readFromTwitter lowerAscii true
        ⟨some ["Cats", "birds", "dogs"], some 200, [some "nothing here"]⟩ =
      ([Action.loadOptions, Action.doRequest], true) :=
  ⟨(option_matching lowerAscii "I love CATS and Dogs" ["Cats", "birds", "dogs"]
      []).2.2.2.2.2.2.2.trans (by decide),
    (option_matching lowerAscii "nothing here" ["Cats", "birds", "dogs"]
      []).2.2.2.2.2.2.2.trans (by decide)⟩

/-- C8, as the claim states it, fails: when `twitterStream` starts a turn
with the token already cancelled, it still loads the options and sends the
stream request before it closes `votes`. -/
theorem cancelled_at_cycle_start_counterexample :
    twitterStream lowerAscii true true
        [⟨⟨some ["cats"], some 200, []⟩, false, false⟩] =
      [Action.loadOptions, Action.doRequest, Action.closeVotes] ∧
    twitterStream lowerAscii true true
        [⟨⟨some ["cats"], some 200, []⟩, false, false⟩] ≠ [Action.closeVotes] := by
  decide

/-- C8, amended: cancellation is observed in the wait after a session. Each
turn of `twitterStream`, the first included, starts a session by loading the
options, whatever the state of the token; when the options are loaded the
session goes on to the stream request, unless the credentials are missing,
in which case the process ends there and `votes` stays open. When the
session returns and the token is cancelled, since the start of the turn or
before the timer fires, the reader closes `votes` and returns, with no
further session. `votes` is closed at most once, only when the token has
been cancelled, and as the last action of the reader. -/
theorem cancellation_observed_after_session (toLower : String → String) (authOk done : Bool)
    (c : Cycle) (rest : List Cycle) :
    (twitterStream toLower authOk done (c :: rest)).head? = some Action.loadOptions ∧
      (∀ options, c.session.options = some options → authOk = true →
        ∃ tail, twitterStream toLower authOk done (c :: rest) =
          Action.loadOptions :: Action.doRequest :: tail) ∧
      (∀ options, c.session.options = some options → authOk = false →
        twitterStream toLower authOk done (c :: rest) =
          [Action.loadOptions, Action.fatal]) ∧
      (c.session.options = none ∨ authOk = true → (done || c.cancelled) = true →
        twitterStream toLower authOk done (c :: rest) =
          (readFromTwitter toLower authOk c.session).1 ++ [Action.closeVotes]) ∧
      (∀ script : List Cycle,
        (twitterStream toLower authOk done script).count Action.closeVotes ≤ 1) ∧
      ∀ script : List Cycle,
        Action.closeVotes ∈ twitterStream toLower authOk done script →
          (twitterStream toLower authOk done script).getLast? = some Action.closeVotes ∧
            everCancelled done script = true := by
  refine ⟨?_, ?_, ?_, ?_, ?_, ?_⟩
  · obtain ⟨tail, ht⟩ := readFromTwitter_head toLower authOk c.session
    rw [twitterStream_cons]
    by_cases hr : (readFromTwitter toLower authOk c.session).2 = true
    · rw [if_pos hr, ht]; rfl
    · rw [if_neg hr, ht]; rfl
  · intro options ho ha
    subst ha
    obtain ⟨tail, ht⟩ := readFromTwitter_request toLower c.session options ho
    have hr : (readFromTwitter toLower true c.session).2 = true :=
      (readFromTwitter_returns toLower true c.session).2 (Or.inr rfl)
    rw [twitterStream_cons, if_pos hr, ht]
    exact ⟨_, rfl⟩
  · intro options ho ha
    subst ha
    rw [twitterStream_cons]
    simp [readFromTwitter, ho]
  · intro hret hd
    have hr : (readFromTwitter toLower authOk c.session).2 = true :=
      (readFromTwitter_returns toLower authOk c.session).2 hret
    rw [twitterStream_cons, if_pos hr, if_pos hd]
  · intro script
    exact twitterStream_count_close toLower authOk done script
  · intro script h
    exact twitterStream_close_last toLower authOk done script h

/-- Witness for C8: the token is cancelled while the first turn waits, after
a session that sent one vote; the reader closes `votes` after that session
and the second turn never starts. -/
theorem cancellation_observed_after_session_witness :
    twitterStream lowerAscii true false
        [⟨⟨some ["cats"], some 200, [some "Cats!"]⟩, true, false⟩,
          ⟨⟨some ["dogs"], some 200, []⟩, false, false⟩] =
      [Action.loadOptions, Action.doRequest, Action.send "cats", Action.closeVotes] :=
  ((cancellation_observed_after_session lowerAscii true false
      ⟨⟨some ["cats"], some 200, [some "Cats!"]⟩, true, false⟩
      [⟨⟨some ["dogs"], some 200, []⟩, false, false⟩]).2.2.2.1 (Or.inr rfl) rfl).trans
    (by decide)

end Socialpoll
